import Mathlib

/-!
# Pokedex: the time-bounded cache of `internal/pokecache/cache.go`

A shallow embedding of the cache and proofs of its specified behaviour.

Modelling conventions.

* `time.Time` values are clock readings, integers counting nanoseconds;
  `time.Duration` is an integer number of nanoseconds. `time.Since t` read
  when the clock shows `now` is `now - t`.
* A `[]byte` payload is `Option (List UInt8)`; `none` is the nil slice, which
  Go distinguishes from the empty slice `some []`.
* `map[string]cacheEntry` is a finite map with unique keys (`AList`).
* The mutex serialises `Add`, `Get` and each pass of `reapLoop`; every one of
  them is a function on the cache state, and an execution is a list of them
  (`run`). The reading of the clock an operation takes is an argument.
* A Go call either returns or panics: `Except String`.
* The ticker of `reapLoop` is created in the goroutine, at or after the
  construction of the cache, and each pass reads the clock at or after its
  tick; both delays are arguments (`tickPass`).
-/

namespace Pokecache

/-- The payload type `[]byte`; `none` is the nil slice. -/
abbrev Bytes := Option (List UInt8)

/-- The struct `cacheEntry`. -/
structure cacheEntry where
  createdAt : Int
  val : Bytes
deriving DecidableEq

/-- The type `map[string]cacheEntry`. -/
abbrev EntryMap := AList (fun _ : String => cacheEntry)

/-- The struct `Cache`, without its mutex. -/
structure Cache where
  entries : EntryMap
  interval : Int

/-- The call `time.Since t`, made when the clock shows `now`. -/
def timeSince (now t : Int) : Int := now - t

/-- The call `time.NewTicker d`: it panics when `d` is not positive. -/
def NewTicker (d : Int) : Except String Unit :=
  if d ≤ 0 then Except.error "non-positive interval for NewTicker" else Except.ok ()

/-- The constructor `NewCache`: allocate an empty map, store the interval, and return the
cache. The `go c.reapLoop()` statement only spawns the loop, so nothing in the
body can fail in the caller. -/
def NewCache (interval : Int) : Except String Cache :=
  Except.ok { entries := ∅, interval := interval }

/-- The method `Cache.Add`, called when the clock shows `now`. -/
def Add (now : Int) (key : String) (val : Bytes) (c : Cache) : Cache :=
  { c with entries := c.entries.insert key { createdAt := now, val := val } }

/-- The method `Cache.Get`: the returned pair and the cache state after the call. -/
def Get (key : String) (c : Cache) : (Bytes × Bool) × Cache :=
  match c.entries.lookup key with
  | none => ((none, false), c)
  | some entry => ((entry.val, true), c)

/-- One step of the inner `for k, v := range c.entries` loop of `reapLoop`:
the entry `kv` is deleted from `m` when its age exceeds the interval. The clock
is read anew for each entry: `clock k` is the reading taken at key `k`. -/
def reapEntry (clock : String → Int) (interval : Int) (m : EntryMap)
    (kv : Sigma (fun _ : String => cacheEntry)) : EntryMap :=
  if timeSince (clock kv.1) kv.2.createdAt > interval then m.erase kv.1 else m

/-- One pass of `reapLoop` (the body run at a tick): every entry of the map
is visited once. -/
def reapPass (clock : String → Int) (c : Cache) : Cache :=
  { c with entries := c.entries.entries.foldl (reapEntry clock c.interval) c.entries }

/-- The goroutine `reapLoop` run on its own for the first ticks of its ticker,
`clocks` holding the clock readings of each pass. -/
def reapLoop (c : Cache) (clocks : List (String → Int)) : Except String Cache :=
  match NewTicker c.interval with
  | Except.error e => Except.error e
  | Except.ok _ => Except.ok (clocks.foldl (fun c clock => reapPass clock c) c)

/-- The operations the mutex serialises. -/
inductive Op where
  | add (now : Int) (key : String) (val : Bytes)
  | get (key : String)
  | reap (clock : String → Int)

/-- The effect of one operation on the cache state. -/
def step (c : Cache) : Op → Cache
  | Op.add now key val => Add now key val c
  | Op.get key => (Get key c).2
  | Op.reap clock => reapPass clock c

/-- An execution: the operations in the order they take the lock. -/
def run (ops : List Op) (c : Cache) : Cache := ops.foldl step c

/-- The pass of `reapLoop` at tick `n` of its ticker. The ticker is created
inside the goroutine, at time `t0` (the cache is constructed at time `0`), and
fires at `t0 + n * I` for `n = 1, 2, ...`. The pass reads the clock only after
the tick is delivered and the lock taken: for key `k`, `lat n k` after the
tick. -/
def tickPass (I t0 : Nat) (lat : Nat → String → Nat) (n : Nat) : Op :=
  Op.reap (fun k => ((t0 + n * I + lat n k : Nat) : Int))

/-- The passes whose ticks fire in the time span `(a, g]`, in the order of
their ticks. -/
def tickOps (I t0 : Nat) (lat : Nat → String → Nat) (a g : Nat) : List Op :=
  ((List.range (g / I + 1)).filter
    (fun n => decide (1 ≤ n ∧ a < t0 + n * I ∧ t0 + n * I ≤ g))).map (tickPass I t0 lat)

/-- The bytes of the string "bar". -/
def bar : Bytes := some [98, 97, 114]

/-- A stale entry for `k` among the entries `l` the inner loop visits. -/
def staleIn (clock : String → Int) (I : Int) (k : String)
    (l : List (Sigma (fun _ : String => cacheEntry))) : Prop :=
  ∃ e, Sigma.mk k e ∈ l ∧ timeSince (clock k) e.createdAt > I

/-! ## Lemmas on the operations -/

theorem lookup_Add_self (now : Int) (key : String) (val : Bytes) (c : Cache) :
    (Add now key val c).entries.lookup key = some { createdAt := now, val := val } := by
  simp [Add]

theorem lookup_Add_ne (now : Int) (key key' : String) (val : Bytes) (c : Cache)
    (h : key' ≠ key) :
    (Add now key val c).entries.lookup key' = c.entries.lookup key' := by
  simp [Add, AList.lookup_insert_ne h]

theorem Get_state (key : String) (c : Cache) : (Get key c).2 = c := by
  unfold Get
  cases c.entries.lookup key <;> rfl

theorem Get_of_lookup_none {key : String} {c : Cache} (h : c.entries.lookup key = none) :
    Get key c = ((none, false), c) := by
  simp [Get, h]

theorem Get_of_lookup_some {key : String} {c : Cache} {e : cacheEntry}
    (h : c.entries.lookup key = some e) : Get key c = ((e.val, true), c) := by
  simp [Get, h]

theorem staleIn_cons (clock : String → Int) (I : Int) (k k' : String) (e' : cacheEntry)
    (l : List (Sigma (fun _ : String => cacheEntry))) :
    staleIn clock I k (Sigma.mk k' e' :: l) ↔
      (k = k' ∧ timeSince (clock k) e'.createdAt > I) ∨ staleIn clock I k l := by
  constructor
  · rintro ⟨e, he, hs⟩
    rcases List.mem_cons.1 he with h | h
    · left
      have h1 : k = k' := congrArg Sigma.fst h
      subst h1
      have h2 : e = e' := by simpa using h
      subst h2
      exact ⟨rfl, hs⟩
    · exact Or.inr ⟨e, h, hs⟩
  · rintro (⟨hk, hs⟩ | ⟨e, he, hs⟩)
    · subst hk
      exact ⟨e', List.mem_cons_self _ _, hs⟩
    · exact ⟨e, List.mem_cons_of_mem _ he, hs⟩

/-- The inner loop over a list of entries `l`, started on the map `m`: key `k`
is deleted when `l` holds a stale entry for it and is left alone otherwise. -/
theorem lookup_foldl_reapEntry (clock : String → Int) (I : Int) (k : String)
    (l : List (Sigma (fun _ : String => cacheEntry))) (m : EntryMap) :
    (staleIn clock I k l → (l.foldl (reapEntry clock I) m).lookup k = none) ∧
    (¬ staleIn clock I k l → (l.foldl (reapEntry clock I) m).lookup k = m.lookup k) := by
  induction l generalizing m with
  | nil =>
    refine ⟨?_, fun _ => rfl⟩
    rintro ⟨e, he, _⟩
    cases he
  | cons kv l ih =>
    obtain ⟨k', e'⟩ := kv
    rw [List.foldl_cons, staleIn_cons]
    obtain ⟨ih1, ih2⟩ := ih (reapEntry clock I m (Sigma.mk k' e'))
    by_cases hl : staleIn clock I k l
    · exact ⟨fun _ => ih1 hl, fun hn => absurd (Or.inr hl) hn⟩
    · rw [ih2 hl]
      constructor
      · rintro (⟨hk, hs⟩ | h)
        · subst hk
          simp [reapEntry, hs]
        · exact absurd h hl
      · intro hn
        unfold reapEntry
        split
        · next hs =>
          have hk : k ≠ k' := fun hk => hn (Or.inl ⟨hk, hk ▸ hs⟩)
          exact AList.lookup_erase_ne hk
        · rfl

/-- What a pass leaves under key `k`. -/
theorem lookup_reapPass (clock : String → Int) (c : Cache) (k : String) :
    (reapPass clock c).entries.lookup k =
      match c.entries.lookup k with
      | none => none
      | some e => if timeSince (clock k) e.createdAt > c.interval then none else some e := by
  show (c.entries.entries.foldl (reapEntry clock c.interval) c.entries).lookup k = _
  obtain ⟨h1, h2⟩ := lookup_foldl_reapEntry clock c.interval k c.entries.entries c.entries
  cases hlk : c.entries.lookup k with
  | none =>
    have hn : ¬ staleIn clock c.interval k c.entries.entries := by
      rintro ⟨e, he, _⟩
      have h3 : c.entries.lookup k = some e := AList.mem_lookup_iff.2 he
      rw [hlk] at h3
      cases h3
    rw [h2 hn, hlk]
  | some e =>
    have hmem : Sigma.mk k e ∈ c.entries.entries := AList.mem_lookup_iff.1 hlk
    by_cases hs : timeSince (clock k) e.createdAt > c.interval
    · rw [h1 ⟨e, hmem, hs⟩]
      simp [hs]
    · have hn : ¬ staleIn clock c.interval k c.entries.entries := by
        rintro ⟨e', he', hs'⟩
        have h3 : c.entries.lookup k = some e' := AList.mem_lookup_iff.2 he'
        rw [hlk] at h3
        cases h3
        exact hs hs'
      rw [h2 hn, hlk]
      simp [hs]

theorem reapPass_interval (clock : String → Int) (c : Cache) :
    (reapPass clock c).interval = c.interval := rfl

theorem lookup_step_of_not_add (k : String) (c : Cache) (op : Op)
    (hop : ∀ now v, op ≠ Op.add now k v) (h : c.entries.lookup k = none) :
    (step c op).entries.lookup k = none := by
  cases op with
  | add now key val =>
    have hk : k ≠ key := by
      rintro rfl
      exact hop now val rfl
    show (Add now key val c).entries.lookup k = none
    rw [lookup_Add_ne now key k val c hk, h]
  | get key =>
    show (Get key c).2.entries.lookup k = none
    rw [Get_state, h]
  | reap clock =>
    show (reapPass clock c).entries.lookup k = none
    rw [lookup_reapPass, h]

/-- A key that is absent stays absent along an execution that never adds it. -/
theorem lookup_run_of_not_add (k : String) (ops : List Op) (c : Cache)
    (hops : ∀ now v, Op.add now k v ∉ ops) (h : c.entries.lookup k = none) :
    (run ops c).entries.lookup k = none := by
  induction ops generalizing c with
  | nil => exact h
  | cons op ops ih =>
    show (run ops (step c op)).entries.lookup k = none
    apply ih
    · intro now v hmem
      exact hops now v (List.mem_cons_of_mem _ hmem)
    · apply lookup_step_of_not_add k c op _ h
      intro now v hop
      exact hops now v (hop ▸ List.mem_cons_self _ _)

theorem step_interval (c : Cache) (op : Op) : (step c op).interval = c.interval := by
  cases op with
  | add now key val => rfl
  | get key =>
    show (Get key c).2.interval = c.interval
    rw [Get_state]
  | reap clock => rfl

/-- An operation other than an `Add` of `k` leaves the entry under `k` as it
was or deletes it. -/
theorem lookup_step_some_or_none (k : String) (e : cacheEntry) (c : Cache) (op : Op)
    (hop : ∀ now v, op ≠ Op.add now k v) (h : c.entries.lookup k = some e) :
    (step c op).entries.lookup k = some e ∨ (step c op).entries.lookup k = none := by
  cases op with
  | add now key val =>
    have hk : k ≠ key := by
      rintro rfl
      exact hop now val rfl
    left
    show (Add now key val c).entries.lookup k = some e
    rw [lookup_Add_ne now key k val c hk, h]
  | get key =>
    left
    show (Get key c).2.entries.lookup k = some e
    rw [Get_state, h]
  | reap clock =>
    show (reapPass clock c).entries.lookup k = some e ∨
      (reapPass clock c).entries.lookup k = none
    rw [lookup_reapPass, h]
    by_cases hs : timeSince (clock k) e.createdAt > c.interval
    · right
      simp only [hs, if_true]
    · left
      simp only [hs, if_false]

/-- Along an execution that never adds `k`, the entry under `k` is gone once a
pass has read for it an age over the interval. -/
theorem lookup_run_of_stale_pass (k : String) (e : cacheEntry) (ops : List Op) (c : Cache)
    (hops : ∀ now v, Op.add now k v ∉ ops) (h : c.entries.lookup k = some e)
    (clock : String → Int) (hmem : Op.reap clock ∈ ops)
    (hstale : timeSince (clock k) e.createdAt > c.interval) :
    (run ops c).entries.lookup k = none := by
  induction ops generalizing c with
  | nil => cases hmem
  | cons op ops ih =>
    have hrest : ∀ now v, Op.add now k v ∉ ops := fun now v hm =>
      hops now v (List.mem_cons_of_mem _ hm)
    have hop : ∀ now v, op ≠ Op.add now k v := fun now v hop =>
      hops now v (hop ▸ List.mem_cons_self _ _)
    show (run ops (step c op)).entries.lookup k = none
    rcases lookup_step_some_or_none k e c op hop h with hs | hn
    · rcases List.mem_cons.1 hmem with heq | hin
      · subst heq
        have hgone : (reapPass clock c).entries.lookup k = none := by
          rw [lookup_reapPass, h]
          simp only [hstale, if_true]
        have hs2 : (reapPass clock c).entries.lookup k = some e := hs
        rw [hgone] at hs2
        cases hs2
      · apply ih (step c op) hrest hs hin
        rw [step_interval]
        exact hstale
    · exact lookup_run_of_not_add k ops _ hrest hn

theorem not_add_mem_tickOps (I t0 : Nat) (lat : Nat → String → Nat) (a g : Nat)
    (now : Int) (k : String) (v : Bytes) : Op.add now k v ∉ tickOps I t0 lat a g := by
  intro hm
  obtain ⟨n, _, hn⟩ := List.mem_map.1 hm
  cases hn

/-- A tick of the ticker falls in `(a + I, a + 2 * I]`, when the ticker was
created no later than `a + I`. -/
theorem due_tick_exists (I t0 a g : Nat) (hI : 0 < I) (ht0 : t0 ≤ a + I)
    (hg : a + 2 * I ≤ g) :
    ∃ n, n < g / I + 1 ∧ 1 ≤ n ∧ a < t0 + n * I ∧ t0 + n * I ≤ g ∧ a + I < t0 + n * I := by
  have h1 := Nat.div_add_mod (a + 2 * I - t0) I
  have h2 := Nat.mod_lt (a + 2 * I - t0) hI
  have h3 : (a + 2 * I - t0) / I * I = I * ((a + 2 * I - t0) / I) := Nat.mul_comm _ _
  have h4 : 1 ≤ (a + 2 * I - t0) / I := by
    rw [Nat.one_le_div_iff hI]
    omega
  have h5 : (a + 2 * I - t0) / I ≤ g / I := Nat.div_le_div_right (by omega)
  exact ⟨(a + 2 * I - t0) / I, by omega, h4, by omega, by omega, by omega⟩

/-- Among the passes due in `(a, g]`, `g` at least `a + 2 * I`, one reads for
`k` a clock value later than `a + I`. -/
theorem stale_pass_mem_tickOps (I t0 a g : Nat) (lat : Nat → String → Nat) (hI : 0 < I)
    (ht0 : t0 ≤ a + I) (hg : a + 2 * I ≤ g) (k : String) :
    ∃ clock, Op.reap clock ∈ tickOps I t0 lat a g ∧
      timeSince (clock k) (a : Int) > (I : Int) := by
  obtain ⟨n, hn, h1, h2, h3, h4⟩ := due_tick_exists I t0 a g hI ht0 hg
  refine ⟨fun k => ((t0 + n * I + lat n k : Nat) : Int), ?_, ?_⟩
  · apply List.mem_map.2
    refine ⟨n, List.mem_filter.2 ⟨List.mem_range.2 hn, ?_⟩, rfl⟩
    exact decide_eq_true ⟨h1, h2, h3⟩
  · show ((t0 + n * I + lat n k : Nat) : Int) - (a : Int) > (I : Int)
    generalize t0 + n * I = s at h4
    omega

/-! ## The claims -/

/-- C1, insert-then-read: in every cache state, for every key (the empty
string too) and every payload (empty or nil too), `Get k` right after
`Add k v` returns `v` and `found = true`. -/
theorem insert_then_read (c : Cache) (now : Int) (k : String) (v : Bytes) :
    (Get k (Add now k v c)).1 = (v, true) := by
  rw [Get_of_lookup_some (lookup_Add_self now k v c)]

/-- C3, overwrite semantics: after `Add k v1` at time `t1` and then `Add k v2`
at time `t2`, `Get k` returns `(v2, true)`, the entry stored for `k` has
`createdAt = t2` and payload `v2`, and nothing of the first insert is left: the
cache is the one a single `Add k v2` at `t2` gives. -/
theorem overwrite_semantics (c : Cache) (t1 t2 : Int) (k : String) (v1 v2 : Bytes) :
    (Get k (Add t2 k v2 (Add t1 k v1 c))).1 = (v2, true) ∧
    (Add t2 k v2 (Add t1 k v1 c)).entries.lookup k = some { createdAt := t2, val := v2 } ∧
    Add t2 k v2 (Add t1 k v1 c) = Add t2 k v2 c := by
  refine ⟨?_, lookup_Add_self t2 k v2 _, ?_⟩
  · rw [Get_of_lookup_some (lookup_Add_self t2 k v2 _)]
  · simp [Add, AList.insert_insert]

/-- C4, miss on absent key: `NewCache` returns a cache with an empty entry
set, and along every execution from it that never adds `k` (the empty
execution too) `Get k` returns nil and `found = false`; so does `Get k` on any
cache whose map has no entry for `k`. -/
theorem miss_on_absent_key (interval : Int) (ops : List Op) (k : String)
    (hnever : ∀ now v, Op.add now k v ∉ ops) :
    (∃ c, NewCache interval = Except.ok c ∧ c.entries = ∅ ∧
      (Get k c).1 = (none, false) ∧ (Get k (run ops c)).1 = (none, false)) ∧
    (∀ c : Cache, c.entries.lookup k = none → (Get k c).1 = (none, false)) := by
  refine ⟨⟨{ entries := ∅, interval := interval }, rfl, rfl, ?_, ?_⟩, ?_⟩
  · rw [Get_of_lookup_none (AList.lookup_empty k)]
  · rw [Get_of_lookup_none
      (lookup_run_of_not_add k ops _ hnever (AList.lookup_empty k))]
  · intro c h
    rw [Get_of_lookup_none h]

theorem miss_on_absent_key_witness :
    (∀ now v, Op.add now "foo" v ∉
      [Op.add 0 "a" bar, Op.reap (fun _ => 100), Op.get "foo", Op.add 7 "" none]) ∧
    ((∃ c, NewCache 50 = Except.ok c ∧ c.entries = ∅ ∧
      (Get "foo" c).1 = (none, false) ∧
      (Get "foo" (run [Op.add 0 "a" bar, Op.reap (fun _ => 100), Op.get "foo",
        Op.add 7 "" none] c)).1 = (none, false)) ∧
    (∀ c : Cache, c.entries.lookup "foo" = none → (Get "foo" c).1 = (none, false))) :=
  ⟨by simp, miss_on_absent_key 50 _ "foo" (by simp)⟩

/-- C6, a pass deletes every stale entry: whatever the cache state and the
clock, an entry present before a pass is gone after it if and only if its age
at the reading the pass takes for it (the sweep time `now`; `clock` is
constant for a pass at one instant) exceeds the interval strictly; `Get` of a
deleted key is a miss, an entry whose age equals the interval is kept, and no
entry left by the pass has an age over the interval. -/
theorem sweep_removes_stale (clock : String → Int) (c : Cache) (k : String) (e : cacheEntry)
    (h : c.entries.lookup k = some e) :
    ((reapPass clock c).entries.lookup k = none ↔
      timeSince (clock k) e.createdAt > c.interval) ∧
    (timeSince (clock k) e.createdAt > c.interval →
      (Get k (reapPass clock c)).1 = (none, false)) ∧
    (timeSince (clock k) e.createdAt = c.interval →
      (reapPass clock c).entries.lookup k = some e) ∧
    (∀ k' e', (reapPass clock c).entries.lookup k' = some e' →
      ¬ timeSince (clock k') e'.createdAt > c.interval) := by
  have hk := lookup_reapPass clock c k
  rw [h] at hk
  refine ⟨?_, ?_, ?_, ?_⟩
  · rw [hk]
    by_cases hs : timeSince (clock k) e.createdAt > c.interval <;> simp [hs]
  · intro hs
    have hnone : (reapPass clock c).entries.lookup k = none := by
      rw [hk]
      simp [hs]
    rw [Get_of_lookup_none hnone]
  · intro hs
    rw [hk]
    have hn : ¬ timeSince (clock k) e.createdAt > c.interval := by omega
    simp [hn]
  · intro k' e' h'
    rw [lookup_reapPass] at h'
    cases hl : c.entries.lookup k' with
    | none =>
      rw [hl] at h'
      cases h'
    | some e0 =>
      rw [hl] at h'
      by_cases hs : timeSince (clock k') e0.createdAt > c.interval
      · simp [hs] at h'
      · simp only [hs, if_false] at h'
        cases h'
        exact hs

theorem sweep_removes_stale_witness :
    (Add 0 "foo" bar { entries := ∅, interval := 50 }).entries.lookup "foo" =
      some { createdAt := 0, val := bar } ∧
    (((reapPass (fun _ => 51) (Add 0 "foo" bar { entries := ∅, interval := 50 })
        ).entries.lookup "foo" = none ↔
      timeSince 51 (0 : Int) > 50) ∧
    (timeSince 51 (0 : Int) > 50 →
      (Get "foo" (reapPass (fun _ => 51)
        (Add 0 "foo" bar { entries := ∅, interval := 50 }))).1 = (none, false)) ∧
    (timeSince 51 (0 : Int) = 50 →
      (reapPass (fun _ => 51) (Add 0 "foo" bar { entries := ∅, interval := 50 })
        ).entries.lookup "foo" = some { createdAt := 0, val := bar }) ∧
    (∀ k' e', (reapPass (fun _ => 51) (Add 0 "foo" bar { entries := ∅, interval := 50 })
        ).entries.lookup k' = some e' →
      ¬ timeSince 51 e'.createdAt > 50)) :=
  ⟨by decide,
    sweep_removes_stale (fun _ => 51) (Add 0 "foo" bar { entries := ∅, interval := 50 })
      "foo" { createdAt := 0, val := bar } (by decide)⟩

/-- C7, a fresh entry survives a pass: an entry whose age at the reading the
pass takes for it is under the interval is still stored under its key after
the pass, unchanged, and `Get` returns its payload with `found = true`; every
entry the pass leaves was there before with the same payload and timestamp (no
key is added, no survivor altered), and the interval is untouched. -/
theorem fresh_survives_sweep (clock : String → Int) (c : Cache) (k : String) (e : cacheEntry)
    (h : c.entries.lookup k = some e)
    (hfresh : timeSince (clock k) e.createdAt < c.interval) :
    (reapPass clock c).entries.lookup k = some e ∧
    (Get k (reapPass clock c)).1 = (e.val, true) ∧
    (∀ k' e', (reapPass clock c).entries.lookup k' = some e' →
      c.entries.lookup k' = some e') ∧
    (reapPass clock c).interval = c.interval := by
  have hk : (reapPass clock c).entries.lookup k = some e := by
    rw [lookup_reapPass, h]
    have hn : ¬ timeSince (clock k) e.createdAt > c.interval := by omega
    simp [hn]
  refine ⟨hk, ?_, ?_, rfl⟩
  · rw [Get_of_lookup_some hk]
  · intro k' e' h'
    rw [lookup_reapPass] at h'
    cases hl : c.entries.lookup k' with
    | none =>
      rw [hl] at h'
      cases h'
    | some e0 =>
      rw [hl] at h'
      by_cases hs : timeSince (clock k') e0.createdAt > c.interval
      · simp [hs] at h'
      · simp only [hs, if_false] at h'
        exact h'

theorem fresh_survives_sweep_witness :
    (Add 10 "foo" bar { entries := ∅, interval := 50 }).entries.lookup "foo" =
      some { createdAt := 10, val := bar } ∧
    timeSince 50 (10 : Int) < 50 ∧
    ((reapPass (fun _ => 50) (Add 10 "foo" bar { entries := ∅, interval := 50 })
        ).entries.lookup "foo" = some { createdAt := 10, val := bar } ∧
    (Get "foo" (reapPass (fun _ => 50)
      (Add 10 "foo" bar { entries := ∅, interval := 50 }))).1 = (bar, true) ∧
    (∀ k' e', (reapPass (fun _ => 50) (Add 10 "foo" bar { entries := ∅, interval := 50 })
        ).entries.lookup k' = some e' →
      (Add 10 "foo" bar { entries := ∅, interval := 50 }).entries.lookup k' = some e') ∧
    (reapPass (fun _ => 50) (Add 10 "foo" bar { entries := ∅, interval := 50 })).interval =
      (Add 10 "foo" bar { entries := ∅, interval := 50 }).interval) :=
  ⟨by decide, by decide,
    fresh_survives_sweep (fun _ => 50) (Add 10 "foo" bar { entries := ∅, interval := 50 })
      "foo" { createdAt := 10, val := bar } (by decide) (by decide)⟩

/-- C8, `Get` ignores staleness and is read-only: when the map holds an entry
under `k`, `Get k` returns its payload with `found = true` and leaves the cache
as it was. `Get` reads no clock, so this holds at every current time and for
every age of the entry, an age over the interval included. -/
theorem get_ignores_staleness (c : Cache) (k : String) (e : cacheEntry)
    (h : c.entries.lookup k = some e) :
    Get k c = ((e.val, true), c) :=
  Get_of_lookup_some h

theorem get_ignores_staleness_witness :
    (Add 0 "foo" bar { entries := ∅, interval := 50 }).entries.lookup "foo" =
      some { createdAt := 0, val := bar } ∧
    timeSince 1000 (0 : Int) > 50 ∧
    Get "foo" (Add 0 "foo" bar { entries := ∅, interval := 50 }) =
      ((bar, true), Add 0 "foo" bar { entries := ∅, interval := 50 }) :=
  ⟨by decide, by decide,
    get_ignores_staleness (Add 0 "foo" bar { entries := ∅, interval := 50 }) "foo"
      { createdAt := 0, val := bar } (by decide)⟩

/-- C10, `Add` touches only its own key: for `k'` other than `k`, `Add k v`
leaves what the map holds under `k'` (presence, payload and `createdAt`) and
the interval as they were, and `Get k'` returns the same before and after. -/
theorem add_touches_only_its_key (c : Cache) (now : Int) (k k' : String) (v : Bytes)
    (h : k' ≠ k) :
    (Add now k v c).entries.lookup k' = c.entries.lookup k' ∧
    (Add now k v c).interval = c.interval ∧
    (Get k' (Add now k v c)).1 = (Get k' c).1 := by
  have hl := lookup_Add_ne now k k' v c h
  refine ⟨hl, rfl, ?_⟩
  unfold Get
  rw [hl]
  cases c.entries.lookup k' <;> rfl

theorem add_touches_only_its_key_witness :
    "foo" ≠ "baz" ∧
    ((Add 9 "baz" none (Add 0 "foo" bar { entries := ∅, interval := 50 })).entries.lookup
        "foo" =
      (Add 0 "foo" bar { entries := ∅, interval := 50 }).entries.lookup "foo" ∧
    (Add 9 "baz" none (Add 0 "foo" bar { entries := ∅, interval := 50 })).interval =
      (Add 0 "foo" bar { entries := ∅, interval := 50 }).interval ∧
    (Get "foo" (Add 9 "baz" none (Add 0 "foo" bar { entries := ∅, interval := 50 }))).1 =
      (Get "foo" (Add 0 "foo" bar { entries := ∅, interval := 50 })).1) :=
  ⟨by decide,
    add_touches_only_its_key (Add 0 "foo" bar { entries := ∅, interval := 50 }) 9
      "baz" "foo" none (by decide)⟩

/-- C5, as the claim states it, fails at interval `0`: `NewCache 0` does not
fail, it returns a cache whose interval is `0`. -/
theorem NewCache_zero_returns :
    (0 : Int) ≤ 0 ∧ (∀ msg, NewCache 0 ≠ Except.error msg) ∧
    ∃ c, NewCache 0 = Except.ok c ∧ c.interval = 0 :=
  ⟨le_refl 0, (fun msg h => by cases h), ⟨{ entries := ∅, interval := 0 }, rfl, rfl⟩⟩

/-- C5, amended: for every interval that is not positive `NewCache` does not
fail in its caller; it returns a cache with an empty entry set and that
interval. The loop it spawned stops in `time.NewTicker`, in its own goroutine,
before any pass. -/
theorem NewCache_does_not_validate (interval : Int) (h : interval ≤ 0) :
    ∃ c, NewCache interval = Except.ok c ∧ c.entries = ∅ ∧ c.interval = interval ∧
      ∀ clocks, reapLoop c clocks = Except.error "non-positive interval for NewTicker" := by
  refine ⟨{ entries := ∅, interval := interval }, rfl, rfl, rfl, ?_⟩
  intro clocks
  simp [reapLoop, NewTicker, h]

theorem NewCache_does_not_validate_witness :
    (-5 : Int) ≤ 0 ∧
    ∃ c, NewCache (-5) = Except.ok c ∧ c.entries = ∅ ∧ c.interval = -5 ∧
      ∀ clocks, reapLoop c clocks = Except.error "non-positive interval for NewTicker" :=
  ⟨by decide, NewCache_does_not_validate (-5) (by decide)⟩

/-- C2, as the claim states it, fails: interval 50ms, `Add "foo" "bar"` 10ms
after construction, `Get` at `I + I/2` = 75ms after the `Add` (85ms). With the
ticker firing at every multiple of 50ms after construction and each pass
reading the clock at its tick, the pass at 50ms finds the age 40ms and keeps
the entry, the next pass is at 100ms, and the `Get` is a hit. It is a hit as
well with the ticker created 3µs after construction and every pass reading the
clock 20µs after its tick. Times are in nanoseconds. -/
theorem expiry_at_one_and_a_half_intervals_fails :
    NewCache 50000000 = Except.ok { entries := ∅, interval := 50000000 } ∧
    (Get "foo" (run
      (tickOps 50000000 0 (fun _ _ => 0) 10000000 (10000000 + (50000000 + 50000000 / 2)))
      (Add 10000000 "foo" bar { entries := ∅, interval := 50000000 }))).1 = (bar, true) ∧
    (Get "foo" (run
      (tickOps 50000000 3000 (fun _ _ => 20000) 10000000
        (10000000 + (50000000 + 50000000 / 2)))
      (Add 10000000 "foo" bar { entries := ∅, interval := 50000000 }))).1 = (bar, true) :=
  ⟨rfl, by decide, by decide⟩

/-- C2, amended: in a cache of interval `I > 0`, after `Add k v` at time `a`
and an execution `ops` that does not add `k` again, `Get k` returns nil and
`found = false` once a pass of `ops` has read for `k` a clock value later than
`a + I`. When the ticker was created at `t0`, no later than `a + I`, fires at
`t0 + n * I` and every pass reads the clock at or after its tick, that is so
for every `Get` at a time `g` of `2 * I` or more after the `Add`, once the
passes due in `(a, g]` have run, whatever else `ops` holds. -/
theorem expiry_by_two_intervals (I a : Nat) (hI : 0 < I) (c : Cache)
    (hc : c.interval = (I : Int)) (k : String) (v : Bytes) (ops : List Op)
    (hnoadd : ∀ now w, Op.add now k w ∉ ops) :
    (∀ clock, Op.reap clock ∈ ops → timeSince (clock k) (a : Int) > (I : Int) →
      (Get k (run ops (Add a k v c))).1 = (none, false)) ∧
    (∀ (t0 : Nat) (lat : Nat → String → Nat) (g : Nat), t0 ≤ a + I → a + 2 * I ≤ g →
      (∀ op ∈ tickOps I t0 lat a g, op ∈ ops) →
      (Get k (run ops (Add a k v c))).1 = (none, false)) := by
  have hA : ∀ clock, Op.reap clock ∈ ops → timeSince (clock k) (a : Int) > (I : Int) →
      (Get k (run ops (Add a k v c))).1 = (none, false) := by
    intro clock hmem hstale
    have hgone := lookup_run_of_stale_pass k { createdAt := a, val := v } ops (Add a k v c)
      hnoadd (lookup_Add_self a k v c) clock hmem (by rw [Add, hc]; exact hstale)
    rw [Get_of_lookup_none hgone]
  refine ⟨hA, ?_⟩
  intro t0 lat g ht0 hg hdue
  obtain ⟨clock, hmem, hstale⟩ := stale_pass_mem_tickOps I t0 a g lat hI ht0 hg k
  exact hA clock (hdue _ hmem) hstale

theorem expiry_by_two_intervals_witness :
    (0 : Nat) < 50000000 ∧
    (({ entries := ∅, interval := 50000000 } : Cache).interval = ((50000000 : Nat) : Int)) ∧
    (Get "foo" (run (tickOps 50000000 3000 (fun _ _ => 20000) 1000 60001000)
      (Add (1000 : Nat) "foo" bar { entries := ∅, interval := 50000000 }))).1 =
        (none, false) ∧
    (Get "foo" (run
      (tickOps 50000000 3000 (fun _ _ => 20000) 10000000 110000000 ++
        [Op.get "foo", Op.add 70000000 "baz" none])
      (Add (10000000 : Nat) "foo" bar { entries := ∅, interval := 50000000 }))).1 =
        (none, false) :=
  ⟨by decide, rfl,
    (expiry_by_two_intervals 50000000 1000 (by decide)
      { entries := ∅, interval := 50000000 } rfl "foo" bar
      (tickOps 50000000 3000 (fun _ _ => 20000) 1000 60001000)
      (fun now w => not_add_mem_tickOps _ _ _ _ _ now "foo" w)).1
      (fun _ => ((3000 + 1 * 50000000 + 20000 : Nat) : Int))
      (List.mem_map.2 ⟨1, by decide, rfl⟩) (by decide),
    (expiry_by_two_intervals 50000000 10000000 (by decide)
      { entries := ∅, interval := 50000000 } rfl "foo" bar
      (tickOps 50000000 3000 (fun _ _ => 20000) 10000000 110000000 ++
        [Op.get "foo", Op.add 70000000 "baz" none])
      (by
        intro now w hm
        rcases List.mem_append.1 hm with h | h
        · exact not_add_mem_tickOps _ _ _ _ _ now "foo" w h
        · simp at h)).2
      3000 (fun _ _ => 20000) 110000000 (by decide) (by decide)
      (fun _ h => List.mem_append_left _ h)⟩

end Pokecache
